import Mathlib

/-!
Verification of the game-engine core: the deferred-event queue
(`event.rs`, `eventqueue.rs`) and the fixed-rate frame loop (`engine.rs`).

The embedding is shallow: `Vec<Event>` becomes `List Event`, the `u32`
counter becomes `Nat` (the underflow condition of the `u32` subtraction is
tracked explicitly by `Event.decUnderflows`), and the event's `fn()` action
pointer becomes an opaque numeric identifier (a capture-less function
pointer cannot read or mutate the queue, so its only observable effect on
the queue model is none).
-/

namespace GameEngine

/-- `Event` from `event.rs`: `name: String`, `frames: u32`, `task: fn()`.
The action pointer is modelled as an opaque identifier. -/
structure Event where
  name : String
  frames : Nat
  task : Nat
  deriving DecidableEq

/-- `Event::dec` from `event.rs`: `self.frames -= 1` on a `u32`.
Modelled with truncated `Nat` subtraction; the case the subtraction
underflows (a panic in debug builds) is `Event.decUnderflows`. -/
def Event.dec (e : Event) : Event :=
  { e with frames := e.frames - 1 }

/-- The precondition violation of `Event::dec`: the `u32` subtraction
`frames -= 1` underflows exactly when `frames == 0`. -/
def Event.decUnderflows (e : Event) : Prop :=
  e.frames = 0

/-- `Vec::swap_remove(i)`: overwrite slot `i` with the last element, then
pop the last slot. -/
def swapRemove (l : List Event) (i : Nat) : List Event :=
  match l.getLast? with
  | none => l
  | some last => (l.set i last).dropLast

/-- `EventQueue::remove(name)` from `eventqueue.rs`: find the position of
the first event whose name matches, and `swap_remove` it; `None` is a
no-op. -/
def removeByName (l : List Event) (nm : String) : List Event :=
  match l.findIdx? (fun event => event.name == nm) with
  | none => l
  | some i => swapRemove l i

/-- `EventQueue::run_all` from `eventqueue.rs`: for each event in order,
invoke `(event.task)()` (no queue effect: the action is a capture-less
`fn()`), then `event.dec()`. -/
def runAll (l : List Event) : List Event :=
  l.map Event.dec

/-- The loop body of `EventQueue::prune`: `for n in 0..len { match
self.get(n) { None => (), Some(event) => if event.frames == 0 {
self.remove(n); } } }`.  The range `0..len` is fixed when the loop starts,
so the loop runs exactly `len` iterations (`fuel`), with `n` incremented
each iteration even when `Vec::remove(n)` (shift-based removal,
`eraseIdx`) just ran. -/
def pruneGo : Nat → List Event → Nat → List Event
  | 0, l, _ => l
  | fuel + 1, l, n =>
    match l.get? n with
    | none => pruneGo fuel l (n + 1)
    | some event =>
      if event.frames = 0 then pruneGo fuel (l.eraseIdx n) (n + 1)
      else pruneGo fuel l (n + 1)

/-- `EventQueue::prune` from `eventqueue.rs`: run the scan over the index
range `0..self.len()` captured at entry. -/
def prune (l : List Event) : List Event :=
  pruneGo l.length l 0

/-- One run-phase of the per-frame cycle as `main_loop` performs it on the
queue: `run_all()` then `prune()`. -/
def cycleRP (l : List Event) : List Event :=
  prune (runAll l)

/-- The queue states reachable from the empty queue by iterating the
per-cycle step of `main_loop`: the task enqueues a batch of events (each
with a positive initial counter, per the spec's event lifecycle), then
`run_all` runs, then `prune` runs. -/
inductive ReachableQ : List Event → Prop
  | init : ReachableQ []
  | step (l enq : List Event) (henq : ∀ e ∈ enq, 1 ≤ e.frames)
      (hl : ReachableQ l) : ReachableQ (prune (runAll (l ++ enq)))

/-- `run_all` on this queue performs a `dec` on some event whose counter is
already `0` (i.e. the `u32` subtraction in `Event::dec` underflows during
the pass). -/
def hitsZeroDec (l : List Event) : Bool :=
  l.any (fun e => e.frames == 0)

/-- C1: the claim says a single `prune()` leaves no event with
`remaining_frames == 0`.  Evaluating `prune` at the failing input — two
adjacent zero-counter events — shows the second one survives: after
removing slot 0 the loop advances to index 1, skipping the element that
shifted into slot 0. -/
theorem c1_prune_misses_adjacent_zero :
    prune [⟨"a", 0, 0⟩, ⟨"b", 0, 0⟩] = [⟨"b", 0, 0⟩] ∧
    ∃ e ∈ prune [⟨"a", 0, 0⟩, ⟨"b", 0, 0⟩], e.frames = 0 := by
  decide

/-- C5: from the queue A(frames=1), B(frames=2), C(frames=3), one
`run_all` + `prune` cycle leaves B(1), C(2); a second leaves C(1); a third
leaves the empty collection. -/
theorem c5_scenario_abc :
    cycleRP [⟨"A", 1, 0⟩, ⟨"B", 2, 0⟩, ⟨"C", 3, 0⟩] =
      [⟨"B", 1, 0⟩, ⟨"C", 2, 0⟩] ∧
    cycleRP (cycleRP [⟨"A", 1, 0⟩, ⟨"B", 2, 0⟩, ⟨"C", 3, 0⟩]) =
      [⟨"C", 1, 0⟩] ∧
    cycleRP (cycleRP (cycleRP [⟨"A", 1, 0⟩, ⟨"B", 2, 0⟩, ⟨"C", 3, 0⟩])) =
      [] := by
  decide

/-- C2: the claim says the underflowing subtraction in `Event::dec` is
unreachable from the empty queue under the task → `run_all` → `prune`
cycle.  It is reachable: a first cycle whose task enqueues two events with
`frames = 1` leaves the queue `[⟨b, 0⟩]` (prune removes the first expired
event but skips the second, which shifted into the removed slot), and the
next cycle's `run_all` then decrements that event at counter `0`. -/
theorem c2_underflow_reachable :
    ReachableQ [⟨"b", 0, 0⟩] ∧ hitsZeroDec [⟨"b", 0, 0⟩] = true := by
  constructor
  · have h := ReachableQ.step [] [⟨"a", 1, 0⟩, ⟨"b", 1, 0⟩]
      (by decide) ReachableQ.init
    simpa using h
  · decide

lemma runAll_iter (k : Nat) (l : List Event) :
    runAll^[k] l = l.map (fun e => Event.dec^[k] e) := by
  induction k with
  | zero => simp
  | succ k ih =>
    rw [Function.iterate_succ_apply', ih, runAll, List.map_map]
    refine List.map_congr_left fun e _ => ?_
    simp [Function.iterate_succ_apply']

lemma dec_iter_frames (k : Nat) (e : Event) :
    (Event.dec^[k] e).frames = e.frames - k := by
  induction k with
  | zero => simp
  | succ k ih =>
    rw [Function.iterate_succ_apply']
    simp [Event.dec, ih]
    omega

/-- C3: an event at slot `i` with initial counter `f`, after `j ≤ k ≤ f`
calls to `run_all` and no other mutation, has counter exactly `f - j`, and
before every one of the `k` decrements its counter is still nonzero (the
`u32` subtraction never underflows). -/
theorem c3_run_all_decrements_linearly (l : List Event) (i k : Nat)
    (hi : i < l.length) (hk : k ≤ (l.get ⟨i, hi⟩).frames) :
    ∀ j, j ≤ k →
      ∃ hj : i < (runAll^[j] l).length,
        ((runAll^[j] l).get ⟨i, hj⟩).frames = (l.get ⟨i, hi⟩).frames - j ∧
        (j < k → ¬ ((runAll^[j] l).get ⟨i, hj⟩).decUnderflows) := by
  intro j hj
  have hlen : (runAll^[j] l).length = l.length := by
    rw [runAll_iter]; simp
  have hj2 : i < (runAll^[j] l).length := by omega
  refine ⟨hj2, ?_, ?_⟩
  · have hget : (runAll^[j] l).get ⟨i, hj2⟩ = Event.dec^[j] (l.get ⟨i, hi⟩) := by
      simp only [runAll_iter, List.get_eq_getElem, List.getElem_map]
    rw [hget, dec_iter_frames]
  · intro hjk hzero
    rw [Event.decUnderflows] at hzero
    have hget : (runAll^[j] l).get ⟨i, hj2⟩ = Event.dec^[j] (l.get ⟨i, hi⟩) := by
      simp only [runAll_iter, List.get_eq_getElem, List.getElem_map]
    rw [hget, dec_iter_frames] at hzero
    omega

/-- C3 witness: the single event with counter 3, after 2 of 3 allowed
calls, sits at counter 1 and has not underflowed. -/
theorem c3_witness :
    ∃ hj : 0 < (runAll^[2] [(⟨"w", 3, 0⟩ : Event)]).length,
      ((runAll^[2] [(⟨"w", 3, 0⟩ : Event)]).get ⟨0, hj⟩).frames =
        (([(⟨"w", 3, 0⟩ : Event)]).get ⟨0, by decide⟩).frames - 2 ∧
      (2 < 3 → ¬ ((runAll^[2] [(⟨"w", 3, 0⟩ : Event)]).get ⟨0, hj⟩).decUnderflows) :=
  c3_run_all_decrements_linearly [⟨"w", 3, 0⟩] 0 3 (by decide) (by decide) 2
    (by decide)

/-- C6: `remove(name)` with a name borne by no event in the queue finds no
position and leaves the collection exactly as it was. -/
theorem c6_remove_absent_noop (l : List Event) (nm : String)
    (h : ∀ e ∈ l, e.name ≠ nm) : removeByName l nm = l := by
  have hfind : l.findIdx? (fun event => event.name == nm) = none := by
    rw [List.findIdx?_eq_none_iff]
    intro e he
    simpa using h e he
  rw [removeByName, hfind]

/-- C6 witness: removing the absent name from a two-event queue changes
nothing. -/
theorem c6_witness :
    removeByName [⟨"a", 2, 0⟩, ⟨"b", 3, 0⟩] "zzz" =
      [⟨"a", 2, 0⟩, ⟨"b", 3, 0⟩] :=
  c6_remove_absent_noop [⟨"a", 2, 0⟩, ⟨"b", 3, 0⟩] "zzz" (by decide)

/-- C9: when every counter is at least 1, `run_all` keeps the length and,
slot by slot, keeps each event's name and action while lowering its
counter by exactly one. -/
theorem c9_run_all_only_decrements (l : List Event)
    (h : ∀ e ∈ l, 1 ≤ e.frames) :
    (runAll l).length = l.length ∧
    ∀ i (hi : i < l.length),
      ∃ hi2 : i < (runAll l).length,
        ((runAll l).get ⟨i, hi2⟩).name = (l.get ⟨i, hi⟩).name ∧
        ((runAll l).get ⟨i, hi2⟩).task = (l.get ⟨i, hi⟩).task ∧
        ((runAll l).get ⟨i, hi2⟩).frames + 1 = (l.get ⟨i, hi⟩).frames := by
  constructor
  · simp [runAll]
  · intro i hi
    have hi2 : i < (runAll l).length := by
      rw [runAll, List.length_map]; exact hi
    refine ⟨hi2, ?_⟩
    have hget : (runAll l).get ⟨i, hi2⟩ = Event.dec (l.get ⟨i, hi⟩) := by
      simp only [runAll, List.get_eq_getElem, List.getElem_map]
    have hmem : l.get ⟨i, hi⟩ ∈ l := List.get_mem l i hi
    have hpos := h _ hmem
    refine ⟨by rw [hget]; rfl, by rw [hget]; rfl, ?_⟩
    rw [hget]
    show (l.get ⟨i, hi⟩).frames - 1 + 1 = (l.get ⟨i, hi⟩).frames
    omega

/-- C9 witness: on a two-event queue with counters 1 and 5, `run_all`
keeps length, names and actions, and lowers each counter by one. -/
theorem c9_witness :
    (runAll [⟨"a", 1, 7⟩, ⟨"b", 5, 8⟩]).length =
      ([(⟨"a", 1, 7⟩ : Event), ⟨"b", 5, 8⟩]).length ∧
    ∀ i (hi : i < ([(⟨"a", 1, 7⟩ : Event), ⟨"b", 5, 8⟩]).length),
      ∃ hi2 : i < (runAll [⟨"a", 1, 7⟩, ⟨"b", 5, 8⟩]).length,
        ((runAll [⟨"a", 1, 7⟩, ⟨"b", 5, 8⟩]).get ⟨i, hi2⟩).name =
          (([(⟨"a", 1, 7⟩ : Event), ⟨"b", 5, 8⟩]).get ⟨i, hi⟩).name ∧
        ((runAll [⟨"a", 1, 7⟩, ⟨"b", 5, 8⟩]).get ⟨i, hi2⟩).task =
          (([(⟨"a", 1, 7⟩ : Event), ⟨"b", 5, 8⟩]).get ⟨i, hi⟩).task ∧
        ((runAll [⟨"a", 1, 7⟩, ⟨"b", 5, 8⟩]).get ⟨i, hi2⟩).frames + 1 =
          (([(⟨"a", 1, 7⟩ : Event), ⟨"b", 5, 8⟩]).get ⟨i, hi⟩).frames :=
  c9_run_all_only_decrements [⟨"a", 1, 7⟩, ⟨"b", 5, 8⟩] (by decide)

lemma pruneGo_sublist (fuel : Nat) :
    ∀ (l : List Event) (n : Nat), List.Sublist (pruneGo fuel l n) l := by
  induction fuel with
  | zero => intro l n; exact List.Sublist.refl l
  | succ fuel ih =>
    intro l n
    rw [pruneGo]
    cases hget : l.get? n with
    | none => exact ih l (n + 1)
    | some e =>
      by_cases he : e.frames = 0
      · simp only [he, if_true]
        exact (ih (l.eraseIdx n) (n + 1)).trans (List.eraseIdx_sublist l n)
      · simp only [he, if_false]
        exact ih l (n + 1)

/-- C10: the events surviving `prune` form a sublist of the original
queue: their relative order is exactly the order they had before the call
(removal is shift-based `Vec::remove`, never a swap). -/
theorem c10_prune_preserves_order (l : List Event) :
    List.Sublist (prune l) l :=
  pruneGo_sublist l.length l 0

/-- The cross-frame state of `Engine::main_loop` that the claims observe:
the event queue and the messages printed so far. -/
structure LoopState where
  eventQueue : List Event
  log : List String
  deriving DecidableEq

/-- `MainLoopFn` from `engine.rs`: `fn(&mut Engine) -> Result<(), String>`.
The task mutates the engine (principally its event queue) and reports
success or a failure message. -/
def MainLoopFn : Type :=
  List Event → List Event × Except String Unit

/-- The SDL inputs `main_loop` distinguishes in its poll loop. -/
inductive SdlInput
  | quit
  | escapeKey
  | keyA
  | otherKey
  | other

/-- The poll loop at the top of `Engine::main_loop`: `Quit` or `Escape`
breaks out of the running loop (`none`); the `A` key pushes the event
named "event" with `frames: 10`; other inputs leave the queue alone. -/
def pollEvents : List SdlInput → List Event → Option (List Event)
  | [], q => some q
  | SdlInput.quit :: _, _ => none
  | SdlInput.escapeKey :: _, _ => none
  | SdlInput.keyA :: rest, q => pollEvents rest (q ++ [⟨"event", 10, 0⟩])
  | SdlInput.otherKey :: rest, q => pollEvents rest q
  | SdlInput.other :: rest, q => pollEvents rest q

/-- `Engine::run_task` from `engine.rs`: call the task; on `Ok` do
nothing, on `Err(msg)` print the message.  Either way execution falls
through to the caller. -/
def runTask (task : MainLoopFn) (st : LoopState) : LoopState :=
  match task st.eventQueue with
  | (q, Except.ok _) => { eventQueue := q, log := st.log }
  | (q, Except.error msg) => { eventQueue := q, log := st.log ++ [msg] }

/-- One iteration of the `'running` loop in `Engine::main_loop`, on the
state the claims observe: poll inputs (which may break the loop, `none`),
then `run_task`, then `event_queue.run_all()`, then `event_queue.prune()`.
`some` means the loop goes on to the next cycle. -/
def mainLoopBody (inputs : List SdlInput) (task : MainLoopFn)
    (st : LoopState) : Option LoopState :=
  match pollEvents inputs st.eventQueue with
  | none => none
  | some q =>
    let st1 := runTask task { st with eventQueue := q }
    some { st1 with eventQueue := prune (runAll st1.eventQueue) }

/-- C7: when the task fails with message `msg` (after mutating the queue
to `q2`), the cycle still performs `run_all` and `prune` on `q2`, the
message is logged, and the loop is not aborted (the body yields `some`
state for the next cycle). -/
theorem c7_task_failure_nonfatal (inputs : List SdlInput)
    (task : MainLoopFn) (st : LoopState) (q q2 : List Event) (msg : String)
    (hpoll : pollEvents inputs st.eventQueue = some q)
    (htask : task q = (q2, Except.error msg)) :
    mainLoopBody inputs task st =
      some { eventQueue := prune (runAll q2), log := st.log ++ [msg] } := by
  simp only [mainLoopBody, hpoll, runTask, htask]

/-- C7 witness: with no pending inputs and a task that leaves one event
queued and fails with "boom", the cycle ends in the next-cycle state whose
queue went through `run_all` and `prune` and whose log gained "boom". -/
theorem c7_witness :
    mainLoopBody [] (fun _ => ([⟨"x", 2, 0⟩], Except.error "boom"))
      { eventQueue := [], log := [] } =
      some { eventQueue := prune (runAll [⟨"x", 2, 0⟩]),
             log := [] ++ ["boom"] } :=
  c7_task_failure_nonfatal [] (fun _ => ([⟨"x", 2, 0⟩], Except.error "boom"))
    { eventQueue := [], log := [] } [] [⟨"x", 2, 0⟩] "boom" rfl rfl

/-- `FRAME_DURATION` from `engine.rs`, in nanoseconds:
`Duration::from_nanos(33_333_333)`, about 33.33 ms. -/
def FRAME_DURATION : Nat := 33333333

/-- `Engine::end` from `engine.rs`, reduced to the duration it sleeps
(times in nanoseconds): `max_frame_time = start + FRAME_DURATION`;
`max_frame_time.duration_since(now)` is `Ok(diff)` when `now` is not past
`max_frame_time`, and the thread sleeps `diff`; on `Err` (overrun) nothing
happens. -/
def endSleepDuration (start now : Nat) : Nat :=
  if now ≤ start + FRAME_DURATION then (start + FRAME_DURATION) - now
  else 0

/-- C8: the pacing deadline is `cycle_start + FRAME_DURATION` with
`FRAME_DURATION` fixed at 33333333 ns (~33.33 ms); before the deadline the
loop sleeps exactly `deadline - now`, and at or past the deadline it
sleeps for no time at all, with no carried compensation (the sleep depends
on nothing but `start` and `now`). -/
theorem c8_pacing (start now : Nat) :
    FRAME_DURATION = 33333333 ∧
    (now < start + FRAME_DURATION →
      endSleepDuration start now = (start + FRAME_DURATION) - now) ∧
    (start + FRAME_DURATION ≤ now → endSleepDuration start now = 0) := by
  refine ⟨rfl, fun h => ?_, fun h => ?_⟩
  · rw [endSleepDuration, if_pos (Nat.le_of_lt h)]
  · rw [endSleepDuration]
    by_cases hle : now ≤ start + FRAME_DURATION
    · rw [if_pos hle]; omega
    · rw [if_neg hle]

/-- C8 witness: a cycle started at 0 with the clock at 10000000 ns sleeps
23333333 ns; with the clock at 40000000 ns (overrun) it sleeps 0. -/
theorem c8_witness :
    endSleepDuration 0 10000000 = 33333333 - 10000000 ∧
    endSleepDuration 0 40000000 = 0 := by
  constructor
  · exact (c8_pacing 0 10000000).2.1 (by norm_num [FRAME_DURATION])
  · exact (c8_pacing 0 40000000).2.2 (by norm_num [FRAME_DURATION])

/-- No two adjacent events in the queue both have counter `0`
(executable form). -/
def noAdjZeroB : List Event → Bool
  | [] => true
  | [_] => true
  | e1 :: e2 :: rest =>
    (!(e1.frames == 0 && e2.frames == 0)) && noAdjZeroB (e2 :: rest)

/-- Index form of the no-adjacent-zeros condition: whenever a zero-counter
event sits at slot `i`, the event at slot `i + 1` (if any) has a nonzero
counter. -/
def adjOk (l : List Event) : Prop :=
  ∀ i e1 e2, l.get? i = some e1 → l.get? (i + 1) = some e2 →
    e1.frames = 0 → e2.frames ≠ 0

/-- Every slot of `l` below `n` holds an event with a nonzero counter. -/
def prefixOk (l : List Event) (n : Nat) : Prop :=
  ∀ m e, m < n → l.get? m = some e → e.frames ≠ 0

lemma get?_eraseIdx_of_lt {α : Type} :
    ∀ (l : List α) (n m : Nat), m < n →
      (l.eraseIdx n).get? m = l.get? m := by
  intro l
  induction l with
  | nil => intro n m _; rfl
  | cons a t ih =>
    intro n m h
    cases n with
    | zero => omega
    | succ n =>
      cases m with
      | zero => rfl
      | succ m => exact ih n m (by omega)

lemma get?_eraseIdx_of_ge {α : Type} :
    ∀ (l : List α) (n m : Nat), n ≤ m →
      (l.eraseIdx n).get? m = l.get? (m + 1) := by
  intro l
  induction l with
  | nil => intro n m _; rfl
  | cons a t ih =>
    intro n m h
    cases n with
    | zero => rfl
    | succ n =>
      cases m with
      | zero => omega
      | succ m => exact ih n m (by omega)

lemma pruneGo_no_zero (fuel : Nat) :
    ∀ (l : List Event) (n : Nat), adjOk l → prefixOk l n →
      l.length ≤ n + fuel → ∀ e ∈ pruneGo fuel l n, e.frames ≠ 0 := by
  induction fuel with
  | zero =>
    intro l n _ hpre hlen e he
    rw [pruneGo] at he
    obtain ⟨i, hi⟩ := List.mem_iff_get?.1 he
    have hilt : i < l.length := by
      by_contra hge
      rw [List.get?_eq_none.2 (by omega)] at hi
      exact Option.noConfusion hi
    exact hpre i e (by omega) hi
  | succ fuel ih =>
    intro l n hadj hpre hlen
    rw [pruneGo]
    cases hget : l.get? n with
    | none =>
      have hln : l.length ≤ n := by
        by_contra hlt
        rw [List.get?_eq_get (by omega)] at hget
        exact Option.noConfusion hget
      refine ih l (n + 1) hadj ?_ (by omega)
      intro m e hm he
      by_cases hmn : m < n
      · exact hpre m e hmn he
      · have : m = n := by omega
        subst this
        rw [hget] at he
        exact Option.noConfusion he
    | some ev =>
      have hnlt : n < l.length := by
        by_contra hge
        rw [List.get?_eq_none.2 (by omega)] at hget
        exact Option.noConfusion hget
      change ∀ e ∈ (if ev.frames = 0 then pruneGo fuel (l.eraseIdx n) (n + 1)
        else pruneGo fuel l (n + 1)), e.frames ≠ 0
      by_cases hz : ev.frames = 0
      · rw [if_pos hz]
        have hlerase : (l.eraseIdx n).length = l.length - 1 := by
          have := List.length_eraseIdx_add_one hnlt
          omega
        refine ih (l.eraseIdx n) (n + 1) ?_ ?_ (by omega)
        · intro i e1 e2 h1 h2 hz1
          rcases Nat.lt_trichotomy (i + 1) n with hlt | heq | hgt
          · rw [get?_eraseIdx_of_lt l n i (by omega)] at h1
            rw [get?_eraseIdx_of_lt l n (i + 1) hlt] at h2
            exact hadj i e1 e2 h1 h2 hz1
          · rw [get?_eraseIdx_of_lt l n i (by omega)] at h1
            exact absurd hz1 (hpre i e1 (by omega) h1)
          · rw [get?_eraseIdx_of_ge l n i (by omega)] at h1
            rw [get?_eraseIdx_of_ge l n (i + 1) (by omega)] at h2
            exact hadj (i + 1) e1 e2 h1 h2 hz1
        · intro m e hm he
          by_cases hmn : m < n
          · rw [get?_eraseIdx_of_lt l n m hmn] at he
            exact hpre m e hmn he
          · have hmeq : m = n := by omega
            rw [hmeq, get?_eraseIdx_of_ge l n n (by omega)] at he
            exact hadj n ev e hget he hz
      · rw [if_neg hz]
        refine ih l (n + 1) hadj ?_ (by omega)
        intro m e hm he
        by_cases hmn : m < n
        · exact hpre m e hmn he
        · have : m = n := by omega
          subst this
          rw [hget] at he
          injection he with he
          exact he ▸ hz

lemma prune_no_zero (l : List Event) (h : adjOk l) :
    ∀ e ∈ prune l, e.frames ≠ 0 :=
  pruneGo_no_zero l.length l 0 h (fun m _ hm _ => absurd hm (by omega))
    (by omega)

lemma pruneGo_of_no_zero (fuel : Nat) :
    ∀ (l : List Event) (n : Nat), (∀ e ∈ l, e.frames ≠ 0) →
      pruneGo fuel l n = l := by
  induction fuel with
  | zero => intro l n _; rfl
  | succ fuel ih =>
    intro l n hz
    rw [pruneGo]
    cases hget : l.get? n with
    | none => exact ih l (n + 1) hz
    | some ev =>
      change (if ev.frames = 0 then pruneGo fuel (l.eraseIdx n) (n + 1)
        else pruneGo fuel l (n + 1)) = l
      rw [if_neg (hz ev (List.get?_mem hget))]
      exact ih l (n + 1) hz

lemma noAdjZeroB_adjOk : ∀ (l : List Event), noAdjZeroB l = true → adjOk l := by
  intro l
  induction l with
  | nil =>
    intro _ i e1 e2 h1 _ _
    simp at h1
  | cons a t ih =>
    cases t with
    | nil =>
      intro _ i e1 e2 _ h2 _
      cases i with
      | zero => simp at h2
      | succ i => simp at h2
    | cons b t2 =>
      intro h i e1 e2 h1 h2 hz
      rw [noAdjZeroB, Bool.and_eq_true] at h
      cases i with
      | zero =>
        have ha : e1 = a := by
          rw [List.get?_cons_zero] at h1
          exact (Option.some.inj h1).symm
        have hb : e2 = b := by
          rw [List.get?_cons_succ, List.get?_cons_zero] at h2
          exact (Option.some.inj h2).symm
        subst ha
        subst hb
        intro hb0
        have := h.1
        rw [hz, hb0] at this
        simp at this
      | succ i =>
        exact ih h.2 i e1 e2 (by simpa using h1) (by simpa using h2) hz

/-- C4 counterexample: on the queue with two adjacent expired events,
one `prune` leaves the second expired event behind and a second `prune`
then removes it, so the two results differ. -/
theorem c4_counterexample :
    prune (prune [⟨"a", 0, 0⟩, ⟨"b", 0, 0⟩]) ≠
      prune [⟨"a", 0, 0⟩, ⟨"b", 0, 0⟩] := by
  decide

/-- C4 (amended): `prune` is idempotent on every queue in which no two
consecutive events both have `remaining_frames == 0`; with adjacent
expired events a single `prune` leaves some behind (see the
counterexample), so a second call removes more. -/
theorem c4_prune_idempotent_amended (l : List Event)
    (h : noAdjZeroB l = true) : prune (prune l) = prune l := by
  have hz := prune_no_zero l (noAdjZeroB_adjOk l h)
  rw [prune]
  exact pruneGo_of_no_zero (prune l).length (prune l) 0 hz

/-- C4 witness: on a queue whose expired events are separated by a live
one, pruning twice equals pruning once. -/
theorem c4_witness :
    prune (prune [⟨"p", 0, 0⟩, ⟨"q", 1, 0⟩, ⟨"r", 0, 0⟩]) =
      prune [⟨"p", 0, 0⟩, ⟨"q", 1, 0⟩, ⟨"r", 0, 0⟩] :=
  c4_prune_idempotent_amended [⟨"p", 0, 0⟩, ⟨"q", 1, 0⟩, ⟨"r", 0, 0⟩]
    (by decide)

end GameEngine
